import Mathlib

/-!
# go-caller: stack capture, symbol parsing and format verbs

A shallow embedding of `caller.go` (package `caller`).

* A Go `string` is a sequence of bytes; it is modelled as a list of byte values
  (`GoString`).  The separators the code searches for (`/`, `.`) are single bytes.
* The slice expressions written in `caller.go` are bounds-checked (`sliceFrom`,
  `sliceTo`): an out-of-range slice is a run-time panic in Go and `none` here, so
  every accessor that slices returns an `Option`.
* The standard-library functions the code calls (`strings.LastIndex`,
  `strings.Cut`, `filepath.Base`, `fmt.Fprint`, `fmt.Fprintf`) are modelled by the
  loops of their Go implementation, for the one-byte separators used here and for
  the Unix flavour of `path/filepath` (separator `/`, no volume names).
* `fmt.State` is a record of the flags of the directive and of the bytes written so
  far; writing appends to the output.
* The stack walker of package `runtime` works on the live stack, a list of raw records
  with the innermost frame first: `runtime.Callers` leaves out the first entries and
  fills the buffer, `runtime.CallersFrames` and `Next` hand the records back one at a
  time with the flag `more`.
-/

namespace caller

/-- A byte of a Go string. -/
abbrev Byte := Nat

/-- A Go string: its bytes, in order. -/
abbrev GoString := List Byte

/-- The bytes of an ASCII literal. -/
def ascii (s : String) : GoString := s.toList.map Char.toNat

/-- The byte `/`. -/
abbrev slash : Byte := 47

/-- The byte `.`. -/
abbrev dot : Byte := 46

/-- The byte `:`. -/
abbrev colon : Byte := 58

/-- The slice expression `s[lo:]`: panics (here `none`) unless `0 ≤ lo ≤ len(s)`. -/
def sliceFrom (s : GoString) (lo : Int) : Option GoString :=
  if 0 ≤ lo ∧ lo ≤ (s.length : Int) then some (s.drop lo.toNat) else none

/-- The slice expression `s[:hi]`: panics (here `none`) unless `0 ≤ hi ≤ len(s)`. -/
def sliceTo (s : GoString) (hi : Int) : Option GoString :=
  if 0 ≤ hi ∧ hi ≤ (s.length : Int) then some (s.take hi.toNat) else none

namespace strings

/-- The loop of `bytealg.LastIndexByteString`: `for i := n-1; i >= 0; i--`, returning
the first `i` met with `s[i] == c`, and `-1` when the loop runs out. -/
def lastIndexLoop (s : GoString) (c : Byte) : Nat → Int
  | 0 => -1
  | i + 1 => if s[i]? = some c then (i : Int) else lastIndexLoop s c i

/-- Go `strings.LastIndex(s, substr)` for a one-byte `substr`: the index of the last
occurrence of the byte, or `-1`. -/
def LastIndex (s : GoString) (c : Byte) : Int := lastIndexLoop s c s.length

/-- The loop of `strings.IndexByte`, scanning the rest of the string from index `i`. -/
def indexByteFrom (c : Byte) : GoString → Nat → Int
  | [], _ => -1
  | b :: t, i => if b = c then (i : Int) else indexByteFrom c t (i + 1)

/-- Go `strings.Index(s, substr)` for a one-byte `substr`: the index of the first
occurrence of the byte, or `-1`. -/
def Index (s : GoString) (c : Byte) : Int := indexByteFrom c s 0

/-- Go `strings.Cut(s, sep)` for a one-byte `sep`:
`if i := Index(s, sep); i >= 0 { return s[:i], s[i+len(sep):], true }; return s, "", false`. -/
def Cut (s : GoString) (sep : Byte) : GoString × GoString × Bool :=
  let i := Index s sep
  if i ≥ 0 then (s.take i.toNat, s.drop (i.toNat + 1), true) else (s, [], false)

end strings

namespace runtime

/-- The record `runtime.Frame`, with its exported value fields (the `Func` pointer and
the unexported fields are left out). -/
structure Frame where
  PC : Nat := 0
  Function : GoString := []
  File : GoString := []
  Line : Int := 0
  Entry : Nat := 0
  deriving DecidableEq, Repr

end runtime

/-- Go `type Frame struct { frame runtime.Frame }`. -/
structure Frame where
  frame : runtime.Frame
  deriving DecidableEq, Repr

/-- Modelled from the spec: `NewFrameForTest`, the constructor the tests use (its file is not
among the sources), builds a `Frame` "by direct construction from a raw record". -/
def NewFrameForTest (frame : runtime.Frame) : Frame := ⟨frame⟩

/-- Go `Frame.FuncName` (caller.go, lines 56-68). -/
def Frame.FuncName (f : Frame) : Option GoString :=
  let idx := strings.LastIndex f.frame.Function slash
  (if idx ≥ 0 then sliceFrom f.frame.Function idx else some f.frame.Function).bind
    fun qualified =>
      let r := strings.Cut qualified dot
      if !r.2.2 then some qualified else some r.2.1

/-- Go `Frame.PkgPath` (caller.go, lines 72-85). -/
def Frame.PkgPath (f : Frame) : Option GoString :=
  let idx := strings.LastIndex f.frame.Function slash
  (if idx ≥ 0 then
      (sliceTo f.frame.Function idx).bind fun pkgpath =>
        (sliceFrom f.frame.Function idx).bind fun qualified => some (pkgpath, qualified)
    else some ([], f.frame.Function)).bind
    fun pq =>
      let r := strings.Cut pq.2 dot
      if !r.2.2 then some pq.1 else some (pq.1 ++ r.1)

/-- Go `Frame.PkgName` (caller.go, lines 89-100). -/
def Frame.PkgName (f : Frame) : Option GoString :=
  let idx := strings.LastIndex f.frame.Function slash
  (if idx ≥ 0 then sliceFrom f.frame.Function (idx + 1) else some f.frame.Function).bind
    fun qualified =>
      let r := strings.Cut qualified dot
      if !r.2.2 then some [] else some r.1

/-- Go `Frame.File`. -/
def Frame.File (f : Frame) : GoString := f.frame.File

/-- Go `Frame.Line`. -/
def Frame.Line (f : Frame) : Int := f.frame.Line

namespace filepath

/-- The first loop of `filepath.Base`:
`for len(path) > 0 && os.IsPathSeparator(path[len(path)-1]) { path = path[0 : len(path)-1] }`,
with at most `n` iterations left. -/
def stripTrailing : Nat → GoString → GoString
  | 0, path => path
  | n + 1, path =>
    if 0 < path.length ∧ path[path.length - 1]? = some slash then
      stripTrailing n (path.take (path.length - 1))
    else path

/-- Go `filepath.Base(path)` on a Unix target (separator `/`, empty volume name): `"."` for the
empty path; otherwise trailing separators are stripped, the text after the last separator is
kept, and a path of separators only gives `"/"`. The scan for the last separator
(`i := len(path)-1; for i >= 0 && !os.IsPathSeparator(path[i]) { i-- }`) is
`strings.lastIndexLoop`. -/
def Base (path : GoString) : GoString :=
  if path = [] then [dot]
  else
    let path1 := stripTrailing path.length path
    let i := strings.lastIndexLoop path1 slash path1.length
    let path2 := if i ≥ 0 then path1.drop (i.toNat + 1) else path1
    if path2 = [] then [slash] else path2

end filepath

namespace fmt

/-- The part of `fmt.State` the code uses: the flags of the directive (`Flag`) and the bytes
written so far (`Write`). -/
structure State where
  flags : List Char
  out : GoString
  deriving DecidableEq, Repr

/-- Go `State.Flag(c)`: whether the flag `c` is set. -/
def State.Flag (s : State) (c : Char) : Bool := decide (c ∈ s.flags)

/-- Go `fmt.Fprint(s, x)` for one string operand: the bytes of `x` are appended to the output. -/
def Fprint (s : State) (x : GoString) : State := { s with out := s.out ++ x }

/-- The digit loop of `fmt.fmtInteger` in base 10:
`for u >= 10 { next := u / 10; buf[i] = '0' + u - next*10; u = next }; buf[i] = digits[u]`,
writing from the right; `acc` is what has been written, `n` bounds the iterations. -/
def digitsLoop : Nat → Nat → GoString → GoString
  | 0, u, acc => (48 + u % 10) :: acc
  | n + 1, u, acc =>
    if u ≥ 10 then digitsLoop n (u / 10) ((48 + (u - u / 10 * 10)) :: acc)
    else (48 + u) :: acc

/-- The text of `%d` for an `int` (no flag, width or precision): a `-` for a negative
number, then the decimal digits of its magnitude. -/
def formatInt (v : Int) : GoString :=
  if v < 0 then 45 :: digitsLoop v.natAbs v.natAbs [] else digitsLoop v.natAbs v.natAbs []

/-- Go `fmt.Fprintf(s, "%d", v)` for an `int`: the directive is formatted by a new printer, so
the flags of `s` play no part. -/
def FprintfD (s : State) (v : Int) : State := { s with out := s.out ++ formatInt v }

end fmt

/-- Decimal representation of an integer, as the specification means it (a reference
definition, not taken from the code): a `-` for a negative number, then the base-10 digits of
the magnitude, most significant first, with the single digit `0` for zero. It is what
`fmt.formatInt` computes (`formatInt_eq_decimalRepr`). -/
def decimalRepr (v : Int) : GoString :=
  (if v < 0 then [45] else []) ++
    (if v = 0 then [48] else (Nat.digits 10 v.natAbs).reverse.map fun d => 48 + d)

/-- Go `Frame.Format` (caller.go, lines 124-149), with a bound on the depth of the calls of
`Format` by itself: the verb `v` calls `f.Format(s, 's')` and `f.Format(s, 'd')` on the same
state. `none` is a panic of an accessor (or the bound being reached). -/
def Frame.FormatFuel : Nat → Frame → fmt.State → Char → Option fmt.State
  | 0, _, _, _ => none
  | n + 1, f, s, verb =>
    if verb = 's' then
      if s.Flag '+' then some (fmt.Fprint s f.File)
      else some (fmt.Fprint s (filepath.Base f.File))
    else if verb = 'd' then some (fmt.FprintfD s f.Line)
    else if verb = 'n' then f.FuncName.map (fmt.Fprint s)
    else if verb = 'P' then
      if s.Flag '+' then f.PkgPath.map (fmt.Fprint s)
      else f.PkgName.map (fmt.Fprint s)
    else if verb = 'v' then
      (Frame.FormatFuel n f s 's').bind fun s1 =>
        Frame.FormatFuel n f (fmt.Fprint s1 [colon]) 'd'
    else some s

/-- Go `Frame.Format`: the calls of `Format` by itself are one level deep, so depth 2 is
enough (see `FormatFuel_stable`). -/
def Frame.Format (f : Frame) (s : fmt.State) (verb : Char) : Option fmt.State :=
  Frame.FormatFuel 2 f s verb

/-- Go `type StackTrace []Frame`. -/
abbrev StackTrace := List Frame

/-- The loop of `StackTrace.Format`: `for i, f := range st { if i > 0 { fmt.Fprint(s, " ") };
f.Format(s, verb) }`, at index `i` with the frames from `i` on. -/
def StackTrace.formatLoop (verb : Char) : List Frame → Nat → fmt.State → Option fmt.State
  | [], _, s => some s
  | f :: rest, i, s =>
    (f.Format (if i > 0 then fmt.Fprint s [32] else s) verb).bind fun s1 =>
      StackTrace.formatLoop verb rest (i + 1) s1

/-- Go `StackTrace.Format` (caller.go, lines 33-42). -/
def StackTrace.Format (st : StackTrace) (s : fmt.State) (verb : Char) : Option fmt.State :=
  (StackTrace.formatLoop verb st 0 (fmt.Fprint s [91])).map fun s1 => fmt.Fprint s1 [93]

/-- The frame of `TestFrame_Format`. -/
def testFrame : Frame :=
  NewFrameForTest
    { Function := ascii "example.com/sample/a.F.G.func1"
      File := ascii "example.com/sample/a/a.go"
      Line := 10 }

/-- Go `Frame.RuntimeFrame`. -/
def Frame.RuntimeFrame (f : Frame) : runtime.Frame := f.frame

namespace runtime

/-- The live call stack at the moment `runtime.Callers` runs, innermost first: entry 0 is the
frame of `runtime.Callers` itself, entry 1 the frame of its caller, and so on outwards. A
program counter stands here with the record it resolves to, one record per program counter
(no inlined and no cgo frames). -/
abbrev Stack := List Frame

/-- Go `runtime.Callers(skip, pc)` with `len(pc) = cap`: the program counters of the stack are
written to `pc`, the first `skip` ones left out (the walker tests `skip > 0`, so a negative
`skip` leaves none out), until the stack or `pc` ends; the result is the part `pc[:n]` that was
written. -/
def Callers (stack : Stack) (skip : Int) (cap : Nat) : List Frame :=
  (stack.drop skip.toNat).take cap

/-- The iterator `*runtime.Frames`: the records it has still to return. -/
structure Frames where
  callers : List Frame
  deriving DecidableEq, Repr

/-- Go `runtime.CallersFrames(callers)`. -/
def CallersFrames (callers : List Frame) : Frames := ⟨callers⟩

/-- Go `(*Frames).Next`: the next record, whether a further call will return a valid record
(`more`), and the iterator after the call. The last valid record comes with `more = false`;
once all records are returned, the zero `Frame` comes with `more = false`. -/
def Frames.Next (ci : Frames) : Frame × Bool × Frames :=
  match ci.callers with
  | [] => ({}, false, ci)
  | r :: rest => (r, !rest.isEmpty, ⟨rest⟩)

end runtime

/-- The loop of `New` (caller.go, lines 22-28):
`for { frame, more := frames.Next(); if !more { break }; st = append(st, Frame{frame: frame}) }`,
with at most `n` iterations left (`none` when they run out). -/
def New.loop : Nat → runtime.Frames → StackTrace → Option StackTrace
  | 0, _, _ => none
  | n + 1, frames, st =>
    let r := frames.Next
    if !r.2.1 then some st else New.loop n r.2.2 (st ++ [⟨r.1⟩])

/-- The value of an `int` expression on a 64-bit target: the integer reduced to the range
`-2^63 .. 2^63 - 1` (two's complement wrap-around of Go's arithmetic). -/
def wrapInt (x : Int) : Int :=
  (x + 9223372036854775808) % 18446744073709551616 - 9223372036854775808

/-- Go `New` (caller.go, lines 17-30), on the live stack `stack` that `runtime.Callers` sees
(entry 0 the frame of `runtime.Callers`, entry 1 the frame of `New`, entry 2 the caller of
`New`): `pc` has 32 places, `runtime.Callers(2+skip, pc[:])` fills `pc[:n]`, and the loop runs
on `runtime.CallersFrames(pc[:n])`. The sum `2+skip` is an `int` sum and wraps around
(`wrapInt`): for `skip >= MaxInt64-1` it is negative and `runtime.Callers` leaves no frame
out. The loop is given `n + 1` iterations, which is enough for it to end (`New_loop_eq`). -/
def New (stack : runtime.Stack) (skip : Int) : Option StackTrace :=
  let pc := runtime.Callers stack (wrapInt (2 + skip)) 32
  New.loop (pc.length + 1) (runtime.CallersFrames pc) []

/-- A live stack as in `TestNew`, innermost first: `runtime.Callers`, `New`, `callNew`,
`wrapCallNew`, the test function, `testing.tRunner` and `runtime.goexit`. -/
def liveStack : runtime.Stack :=
  [ { Function := ascii "runtime.Callers", File := ascii "runtime/extern.go", Line := 331 },
    { Function := ascii "github.com/newmo-oss/go-caller.New", File := ascii "caller.go",
      Line := 19 },
    { Function := ascii "github.com/newmo-oss/go-caller_test.callNew",
      File := ascii "callNew.go", Line := 2 },
    { Function := ascii "github.com/newmo-oss/go-caller_test.wrapCallNew",
      File := ascii "wrapCallNew.go", Line := 2 },
    { Function := ascii "github.com/newmo-oss/go-caller_test.TestNew",
      File := ascii "caller_test.go", Line := 22 },
    { Function := ascii "testing.tRunner", File := ascii "testing/testing.go", Line := 1690 },
    { Function := ascii "runtime.goexit", File := ascii "runtime/asm_amd64.s", Line := 1695 } ]

/-- A live stack of 40 frames, innermost first; frame `i` has program counter `i`. -/
def deepStack : runtime.Stack :=
  (List.range 40).map fun i => { PC := i, Function := ascii "main.f", Line := i }

/-! ## The standard-library loops on a string split at a separator -/

theorem lastIndexLoop_of_not_mem (s : GoString) (c : Byte) (h : c ∉ s) :
    ∀ n, strings.lastIndexLoop s c n = -1
  | 0 => rfl
  | n + 1 => by
    have hn : s[n]? ≠ some c := fun e => h (List.getElem?_mem e)
    simp [strings.lastIndexLoop, hn, lastIndexLoop_of_not_mem s c h n]

theorem lastIndexLoop_append (a b : GoString) (c : Byte) (h : c ∉ b) :
    ∀ k, k ≤ b.length → strings.lastIndexLoop (a ++ c :: b) c (a.length + 1 + k) = a.length
  | 0, _ => by
    have hget : (a ++ c :: b)[a.length]? = some c := by
      rw [List.getElem?_append_right le_rfl]
      simp
    simp only [Nat.add_zero, strings.lastIndexLoop, hget, if_true]
  | k + 1, hk => by
    have hk1 : k < b.length := hk
    have hget : (a ++ c :: b)[a.length + 1 + k]? = some b[k] := by
      rw [List.getElem?_append_right (by omega)]
      have e : a.length + 1 + k - a.length = k + 1 := by omega
      rw [e]
      simp [List.getElem?_eq_getElem hk1]
    have hne : b[k] ≠ c := fun e => h (e ▸ List.getElem_mem hk1)
    have e2 : a.length + 1 + (k + 1) = (a.length + 1 + k) + 1 := by omega
    rw [e2, strings.lastIndexLoop, hget]
    simp [hne, lastIndexLoop_append a b c h k (by omega)]

theorem LastIndex_append (a b : GoString) (c : Byte) (h : c ∉ b) :
    strings.LastIndex (a ++ c :: b) c = a.length := by
  have e : (a ++ c :: b).length = a.length + 1 + b.length := by simp; omega
  rw [strings.LastIndex, e]
  exact lastIndexLoop_append a b c h b.length le_rfl

theorem LastIndex_of_not_mem (s : GoString) (c : Byte) (h : c ∉ s) :
    strings.LastIndex s c = -1 :=
  lastIndexLoop_of_not_mem s c h s.length

theorem indexByteFrom_of_not_mem (c : Byte) :
    ∀ (s : GoString) (i : Nat), c ∉ s → strings.indexByteFrom c s i = -1
  | [], _, _ => rfl
  | b :: t, i, h => by
    have hb : b ≠ c := fun e => h (e ▸ List.mem_cons_self b t)
    have ht : c ∉ t := fun e => h (List.mem_cons_of_mem b e)
    simp [strings.indexByteFrom, hb, indexByteFrom_of_not_mem c t (i + 1) ht]

theorem indexByteFrom_append (c : Byte) (b : GoString) :
    ∀ (a : GoString) (i : Nat), c ∉ a →
      strings.indexByteFrom c (a ++ c :: b) i = ((i + a.length : Nat) : Int)
  | [], i, _ => by simp [strings.indexByteFrom]
  | x :: a, i, h => by
    have hx : x ≠ c := fun e => h (e ▸ List.mem_cons_self x a)
    have ha : c ∉ a := fun e => h (List.mem_cons_of_mem x e)
    have e : i + 1 + a.length = i + (a.length + 1) := by omega
    simp [strings.indexByteFrom, hx, indexByteFrom_append c b a (i + 1) ha, e]

theorem Cut_append (a b : GoString) (c : Byte) (h : c ∉ a) :
    strings.Cut (a ++ c :: b) c = (a, b, true) := by
  simp [strings.Cut, strings.Index, indexByteFrom_append c b a 0 h]

theorem Cut_of_not_mem (s : GoString) (c : Byte) (h : c ∉ s) :
    strings.Cut s c = (s, [], false) := by
  simp [strings.Cut, strings.Index, indexByteFrom_of_not_mem c s 0 h]

/-! ## Slices at the split point -/

theorem sliceFrom_append (a b : GoString) : sliceFrom (a ++ b) (a.length : Int) = some b := by
  simp [sliceFrom]

theorem sliceFrom_append_succ (a b : GoString) (c : Byte) :
    sliceFrom (a ++ c :: b) ((a.length : Int) + 1) = some b := by
  have e : ((a.length : Int) + 1).toNat = a.length + 1 := by omega
  have hle : (0 : Int) ≤ (a.length : Int) + 1 := by omega
  simp [sliceFrom, e, hle]

theorem sliceTo_append (a b : GoString) : sliceTo (a ++ b) (a.length : Int) = some a := by
  simp [sliceTo]

/-! ## The three accessors on the four shapes of a symbol -/

theorem FuncName_of_no_slash (f : Frame) (h : slash ∉ f.frame.Function) :
    f.FuncName =
      some (if (strings.Cut f.frame.Function dot).2.2 then (strings.Cut f.frame.Function dot).2.1
        else f.frame.Function) := by
  simp only [Frame.FuncName, LastIndex_of_not_mem _ _ h]
  cases hc : (strings.Cut f.frame.Function dot).2.2 <;> simp [hc]

theorem FuncName_of_slash (f : Frame) (a q : GoString) (hq : slash ∉ q)
    (h : f.frame.Function = a ++ slash :: q) :
    f.FuncName =
      some (if (strings.Cut (slash :: q) dot).2.2 then (strings.Cut (slash :: q) dot).2.1
        else slash :: q) := by
  simp only [Frame.FuncName, h, LastIndex_append a q slash hq, sliceFrom_append]
  cases hc : (strings.Cut (slash :: q) dot).2.2 <;> simp [hc]

theorem PkgPath_of_no_slash (f : Frame) (h : slash ∉ f.frame.Function) :
    f.PkgPath =
      some (if (strings.Cut f.frame.Function dot).2.2 then (strings.Cut f.frame.Function dot).1
        else []) := by
  simp only [Frame.PkgPath, LastIndex_of_not_mem _ _ h]
  cases hc : (strings.Cut f.frame.Function dot).2.2 <;> simp [hc]

theorem PkgPath_of_slash (f : Frame) (a q : GoString) (hq : slash ∉ q)
    (h : f.frame.Function = a ++ slash :: q) :
    f.PkgPath =
      some (if (strings.Cut (slash :: q) dot).2.2 then a ++ (strings.Cut (slash :: q) dot).1
        else a) := by
  simp only [Frame.PkgPath, h, LastIndex_append a q slash hq, sliceFrom_append, sliceTo_append]
  cases hc : (strings.Cut (slash :: q) dot).2.2 <;> simp [hc]

theorem PkgName_of_no_slash (f : Frame) (h : slash ∉ f.frame.Function) :
    f.PkgName =
      some (if (strings.Cut f.frame.Function dot).2.2 then (strings.Cut f.frame.Function dot).1
        else []) := by
  simp only [Frame.PkgName, LastIndex_of_not_mem _ _ h]
  cases hc : (strings.Cut f.frame.Function dot).2.2 <;> simp [hc]

theorem PkgName_of_slash (f : Frame) (a q : GoString) (hq : slash ∉ q)
    (h : f.frame.Function = a ++ slash :: q) :
    f.PkgName =
      some (if (strings.Cut q dot).2.2 then (strings.Cut q dot).1 else []) := by
  simp only [Frame.PkgName, h, LastIndex_append a q slash hq, sliceFrom_append_succ]
  cases hc : (strings.Cut q dot).2.2 <;> simp [hc]

theorem not_mem_qualified (pkg rest : GoString) (hpkg : slash ∉ pkg) (hrest : slash ∉ rest) :
    slash ∉ pkg ++ dot :: rest := by
  simp [hpkg, hrest]

theorem Cut_slash_cons (pkg rest : GoString) (hdot : dot ∉ pkg) :
    strings.Cut (slash :: (pkg ++ dot :: rest)) dot = (slash :: pkg, rest, true) := by
  have hd : dot ∉ slash :: pkg := by simp [hdot]
  exact Cut_append (slash :: pkg) rest dot hd

theorem Cut_slash_cons_of_not_mem (q : GoString) (hdot : dot ∉ q) :
    strings.Cut (slash :: q) dot = (slash :: q, [], false) := by
  have hd : dot ∉ slash :: q := by simp [hdot]
  exact Cut_of_not_mem (slash :: q) dot hd

theorem FuncName_of_slash_no_dot (f : Frame) (pre q : GoString) (hq : slash ∉ q)
    (hqdot : dot ∉ q) (h : f.frame.Function = pre ++ slash :: q) :
    f.FuncName = some (slash :: q) := by
  rw [FuncName_of_slash f pre q hq h, Cut_slash_cons_of_not_mem q hqdot]
  simp

/-! ## Every symbol has one of the four shapes -/

theorem exists_split_last (c : Byte) (s : GoString) :
    c ∉ s ∨ ∃ a b, s = a ++ c :: b ∧ c ∉ b := by
  by_cases h : c ∈ s
  · right
    have hr : c ∈ s.reverse := List.mem_reverse.mpr h
    obtain ⟨x, y, hxy, hx⟩ := List.eq_append_cons_of_mem hr
    refine ⟨y.reverse, x.reverse, ?_, fun hm => hx (List.mem_reverse.mp hm)⟩
    have e := congrArg List.reverse hxy
    simpa using e
  · exact Or.inl h

theorem exists_split_first (c : Byte) (s : GoString) :
    c ∉ s ∨ ∃ a b, s = a ++ c :: b ∧ c ∉ a := by
  by_cases h : c ∈ s
  · exact Or.inr (List.eq_append_cons_of_mem h)
  · exact Or.inl h

theorem symbol_shapes (s : GoString) :
    (∃ pre pkg rest, dot ∉ pkg ∧ slash ∉ pkg ∧ slash ∉ rest ∧
      (s = pkg ++ dot :: rest ∨ s = pre ++ slash :: (pkg ++ dot :: rest))) ∨
    (∃ pre q, slash ∉ q ∧ dot ∉ q ∧ (s = q ∨ s = pre ++ slash :: q)) := by
  rcases exists_split_last slash s with hs | ⟨pre, q, hs, hq⟩
  · rcases exists_split_first dot s with hd | ⟨pkg, rest, hd, hpkg⟩
    · exact Or.inr ⟨[], s, hs, hd, Or.inl rfl⟩
    · subst hd
      simp only [List.mem_append, List.mem_cons, not_or] at hs
      exact Or.inl ⟨[], pkg, rest, hpkg, hs.1, hs.2.2, Or.inl rfl⟩
  · rcases exists_split_first dot q with hd | ⟨pkg, rest, hd, hpkg⟩
    · exact Or.inr ⟨pre, q, hq, hd, Or.inr hs⟩
    · subst hd
      simp only [List.mem_append, List.mem_cons, not_or] at hq
      exact Or.inl ⟨pre, pkg, rest, hpkg, hq.1, hq.2.2, Or.inr hs⟩

/-! ## The accessors always return -/

theorem lastIndexLoop_bounds (s : GoString) (c : Byte) :
    ∀ n, -1 ≤ strings.lastIndexLoop s c n ∧ strings.lastIndexLoop s c n < (n : Int)
  | 0 => by simp [strings.lastIndexLoop]
  | n + 1 => by
    have ih := lastIndexLoop_bounds s c n
    unfold strings.lastIndexLoop
    split
    · constructor <;> omega
    · constructor <;> omega

theorem LastIndex_bounds (s : GoString) (c : Byte) :
    -1 ≤ strings.LastIndex s c ∧ strings.LastIndex s c < (s.length : Int) :=
  lastIndexLoop_bounds s c s.length

theorem sliceFrom_isSome (s : GoString) (i : Int) (h0 : 0 ≤ i) (h1 : i ≤ (s.length : Int)) :
    sliceFrom s i = some (s.drop i.toNat) := by
  simp [sliceFrom, h0, h1]

theorem sliceTo_isSome (s : GoString) (i : Int) (h0 : 0 ≤ i) (h1 : i ≤ (s.length : Int)) :
    sliceTo s i = some (s.take i.toNat) := by
  simp [sliceTo, h0, h1]

theorem FuncName_returns (f : Frame) : ∃ name, f.FuncName = some name := by
  have hb := LastIndex_bounds f.frame.Function slash
  unfold Frame.FuncName
  by_cases h : strings.LastIndex f.frame.Function slash ≥ 0
  · simp only [h, if_true, sliceFrom_isSome _ _ h (le_of_lt hb.2), Option.some_bind]
    split <;> exact ⟨_, rfl⟩
  · simp only [h, if_false, Option.some_bind]
    split <;> exact ⟨_, rfl⟩

theorem PkgPath_returns (f : Frame) : ∃ path, f.PkgPath = some path := by
  have hb := LastIndex_bounds f.frame.Function slash
  unfold Frame.PkgPath
  by_cases h : strings.LastIndex f.frame.Function slash ≥ 0
  · simp only [h, if_true, sliceFrom_isSome _ _ h (le_of_lt hb.2),
      sliceTo_isSome _ _ h (le_of_lt hb.2), Option.some_bind]
    split <;> exact ⟨_, rfl⟩
  · simp only [h, if_false, Option.some_bind]
    split <;> exact ⟨_, rfl⟩

theorem PkgName_returns (f : Frame) : ∃ name, f.PkgName = some name := by
  have hb := LastIndex_bounds f.frame.Function slash
  unfold Frame.PkgName
  by_cases h : strings.LastIndex f.frame.Function slash ≥ 0
  · have h0 : (0 : Int) ≤ strings.LastIndex f.frame.Function slash + 1 := by omega
    have h1 : strings.LastIndex f.frame.Function slash + 1 ≤ (f.frame.Function.length : Int) := by
      omega
    simp only [h, if_true, sliceFrom_isSome _ _ h0 h1, Option.some_bind]
    split <;> exact ⟨_, rfl⟩
  · simp only [h, if_false, Option.some_bind]
    split <;> exact ⟨_, rfl⟩

/-! ## Parsing of the symbol -/

/-- C1: when the part of the symbol after its last `/` (the whole symbol when it has no `/`)
is `pkg ++ "." ++ rest` with no `.` in `pkg`, `FuncName()` returns exactly `rest`, the text
after the first `.` that follows the last `/`: the later `.`-joined segments are kept, the
module path `pre` and the package segment `pkg` are not. -/
theorem FuncName_after_first_dot (f : Frame) (pre pkg rest : GoString)
    (hdot : dot ∉ pkg) (hpkg : slash ∉ pkg) (hrest : slash ∉ rest)
    (h : f.frame.Function = pkg ++ dot :: rest ∨
      f.frame.Function = pre ++ slash :: (pkg ++ dot :: rest)) :
    f.FuncName = some rest := by
  have hq := not_mem_qualified pkg rest hpkg hrest
  rcases h with h | h
  · rw [FuncName_of_no_slash f (h ▸ hq), h, Cut_append pkg rest dot hdot]
    simp
  · rw [FuncName_of_slash f pre _ hq h, Cut_slash_cons pkg rest hdot]
    simp

theorem FuncName_after_first_dot_witness :
    dot ∉ ascii "a" ∧ slash ∉ ascii "a" ∧ slash ∉ ascii "F.G.func1" ∧
      (NewFrameForTest { Function := ascii "example.com/sample/a.F.G.func1" }).FuncName =
        some (ascii "F.G.func1") :=
  ⟨by decide, by decide, by decide,
    FuncName_after_first_dot (NewFrameForTest { Function := ascii "example.com/sample/a.F.G.func1" })
      (ascii "example.com/sample") (ascii "a") (ascii "F.G.func1")
      (by decide) (by decide) (by decide) (Or.inr (by decide))⟩

/-- C2: `PkgPath()` on the four shapes of a symbol. When the part after the last `/` is
`pkg ++ "." ++ rest` with no `.` in `pkg`, the result is the part of the symbol before that
first `.` (`pkg` when there is no `/`, `pre ++ "/" ++ pkg` otherwise); when the part `q` after
the last `/` has no `.`, the result is the part of the symbol before its last `/` (`pre`), and
the empty string when there is no `/`. -/
theorem PkgPath_spec (f : Frame) (pre pkg rest q : GoString)
    (hdot : dot ∉ pkg) (hpkg : slash ∉ pkg) (hrest : slash ∉ rest)
    (hq : slash ∉ q) (hqdot : dot ∉ q) :
    (f.frame.Function = pkg ++ dot :: rest → f.PkgPath = some pkg) ∧
    (f.frame.Function = pre ++ slash :: (pkg ++ dot :: rest) →
      f.PkgPath = some (pre ++ slash :: pkg)) ∧
    (f.frame.Function = q → f.PkgPath = some []) ∧
    (f.frame.Function = pre ++ slash :: q → f.PkgPath = some pre) := by
  have hq1 := not_mem_qualified pkg rest hpkg hrest
  refine ⟨fun h => ?_, fun h => ?_, fun h => ?_, fun h => ?_⟩
  · rw [PkgPath_of_no_slash f (h ▸ hq1), h, Cut_append pkg rest dot hdot]
    simp
  · rw [PkgPath_of_slash f pre _ hq1 h, Cut_slash_cons pkg rest hdot]
    simp
  · rw [PkgPath_of_no_slash f (h ▸ hq), h, Cut_of_not_mem q dot hqdot]
    simp
  · rw [PkgPath_of_slash f pre _ hq h, Cut_slash_cons_of_not_mem q hqdot]
    simp

theorem PkgPath_spec_witness :
    (NewFrameForTest { Function := ascii "example.com/sample/a.F.G.func1" }).PkgPath =
        some (ascii "example.com/sample/a") ∧
      (NewFrameForTest { Function := ascii "F" }).PkgPath = some [] :=
  ⟨(PkgPath_spec (NewFrameForTest { Function := ascii "example.com/sample/a.F.G.func1" })
      (ascii "example.com/sample") (ascii "a") (ascii "F.G.func1") (ascii "F")
      (by decide) (by decide) (by decide) (by decide) (by decide)).2.1 (by decide),
    (PkgPath_spec (NewFrameForTest { Function := ascii "F" })
      (ascii "example.com/sample") (ascii "a") (ascii "F.G.func1") (ascii "F")
      (by decide) (by decide) (by decide) (by decide) (by decide)).2.2.1 (by decide)⟩

/-- C3: `PkgName()` returns the segment strictly between the last `/` (or the start of the
symbol when it has no `/`) and the first `.` that follows it, and the empty string when no
`.` follows the last `/`. -/
theorem PkgName_spec (f : Frame) (pre pkg rest q : GoString)
    (hdot : dot ∉ pkg) (hpkg : slash ∉ pkg) (hrest : slash ∉ rest)
    (hq : slash ∉ q) (hqdot : dot ∉ q) :
    (f.frame.Function = pkg ++ dot :: rest → f.PkgName = some pkg) ∧
    (f.frame.Function = pre ++ slash :: (pkg ++ dot :: rest) → f.PkgName = some pkg) ∧
    (f.frame.Function = q → f.PkgName = some []) ∧
    (f.frame.Function = pre ++ slash :: q → f.PkgName = some []) := by
  have hq1 := not_mem_qualified pkg rest hpkg hrest
  refine ⟨fun h => ?_, fun h => ?_, fun h => ?_, fun h => ?_⟩
  · rw [PkgName_of_no_slash f (h ▸ hq1), h, Cut_append pkg rest dot hdot]
    simp
  · rw [PkgName_of_slash f pre _ hq1 h, Cut_append pkg rest dot hdot]
    simp
  · rw [PkgName_of_no_slash f (h ▸ hq), h, Cut_of_not_mem q dot hqdot]
    simp
  · rw [PkgName_of_slash f pre _ hq h, Cut_of_not_mem q dot hqdot]
    simp

theorem PkgName_spec_witness :
    (NewFrameForTest { Function := ascii "example.com/sample/a.F" }).PkgName = some (ascii "a") ∧
      (NewFrameForTest { Function := ascii "F" }).PkgName = some [] :=
  ⟨(PkgName_spec (NewFrameForTest { Function := ascii "example.com/sample/a.F" })
      (ascii "example.com/sample") (ascii "a") (ascii "F") (ascii "F")
      (by decide) (by decide) (by decide) (by decide) (by decide)).2.1 (by decide),
    (PkgName_spec (NewFrameForTest { Function := ascii "F" })
      (ascii "example.com/sample") (ascii "a") (ascii "F") (ascii "F")
      (by decide) (by decide) (by decide) (by decide) (by decide)).2.2.1 (by decide)⟩

/-- C4 (the code at the failing input): for the symbol `a/b`, which contains a `/` and has no
`.` after it, `FuncName()` returns `/b`: the last `/` is kept, the result is not `b` and it
contains a `/`. -/
theorem FuncName_bare_keeps_slash :
    (NewFrameForTest { Function := ascii "a/b" }).FuncName = some (ascii "/b") ∧
      (NewFrameForTest { Function := ascii "a/b" }).FuncName ≠ some (ascii "b") ∧
      slash ∈ ascii "/b" := by
  decide

/-- C5: for a symbol with neither `/` nor `.`, `FuncName()` is the symbol itself and
`PkgPath()` and `PkgName()` are the empty string. -/
theorem bare_symbol (f : Frame) (hs : slash ∉ f.frame.Function) (hd : dot ∉ f.frame.Function) :
    f.FuncName = some f.frame.Function ∧ f.PkgPath = some [] ∧ f.PkgName = some [] := by
  rw [FuncName_of_no_slash f hs, PkgPath_of_no_slash f hs, PkgName_of_no_slash f hs,
    Cut_of_not_mem _ dot hd]
  simp

theorem bare_symbol_witness :
    (NewFrameForTest { Function := ascii "F" }).FuncName = some (ascii "F") ∧
      (NewFrameForTest { Function := ascii "F" }).PkgPath = some [] ∧
      (NewFrameForTest { Function := ascii "F" }).PkgName = some [] :=
  bare_symbol (NewFrameForTest { Function := ascii "F" }) (by decide) (by decide)

/-- C6: for a symbol with a `.` after its last `/`, `PkgPath()` and `FuncName()` both return,
and `PkgPath() ++ "." ++ FuncName()` is the raw symbol. -/
theorem PkgPath_dot_FuncName (f : Frame) (pre pkg rest : GoString)
    (hdot : dot ∉ pkg) (hpkg : slash ∉ pkg) (hrest : slash ∉ rest)
    (h : f.frame.Function = pkg ++ dot :: rest ∨
      f.frame.Function = pre ++ slash :: (pkg ++ dot :: rest)) :
    ∃ path name, f.PkgPath = some path ∧ f.FuncName = some name ∧
      path ++ dot :: name = f.frame.Function := by
  have hq := not_mem_qualified pkg rest hpkg hrest
  rcases h with h | h
  · refine ⟨pkg, rest, ?_, ?_, h.symm⟩
    · rw [PkgPath_of_no_slash f (h ▸ hq), h, Cut_append pkg rest dot hdot]
      simp
    · rw [FuncName_of_no_slash f (h ▸ hq), h, Cut_append pkg rest dot hdot]
      simp
  · refine ⟨pre ++ slash :: pkg, rest, ?_, ?_, ?_⟩
    · rw [PkgPath_of_slash f pre _ hq h, Cut_slash_cons pkg rest hdot]
      simp
    · rw [FuncName_of_slash f pre _ hq h, Cut_slash_cons pkg rest hdot]
      simp
    · rw [h]
      simp

theorem PkgPath_dot_FuncName_witness :
    ∃ path name,
      (NewFrameForTest { Function := ascii "example.com/sample/a.F.G.func1" }).PkgPath = some path ∧
      (NewFrameForTest { Function := ascii "example.com/sample/a.F.G.func1" }).FuncName = some name ∧
      path ++ dot :: name = ascii "example.com/sample/a.F.G.func1" :=
  PkgPath_dot_FuncName (NewFrameForTest { Function := ascii "example.com/sample/a.F.G.func1" })
    (ascii "example.com/sample") (ascii "a") (ascii "F.G.func1")
    (by decide) (by decide) (by decide) (Or.inr (by decide))

/-- C7: for a symbol with a `.` after its last `/`, `PkgPath()` and `PkgName()` both return;
when the symbol has no `/` they are equal, and when it has one `PkgPath()` is the part of the
symbol before its last `/`, one `/`, and `PkgName()`. -/
theorem PkgPath_PkgName_consistent (f : Frame) (pre pkg rest : GoString)
    (hdot : dot ∉ pkg) (hpkg : slash ∉ pkg) (hrest : slash ∉ rest) :
    (f.frame.Function = pkg ++ dot :: rest →
      slash ∉ f.frame.Function ∧
      ∃ path name, f.PkgPath = some path ∧ f.PkgName = some name ∧ path = name) ∧
    (f.frame.Function = pre ++ slash :: (pkg ++ dot :: rest) →
      ∃ path name, f.PkgPath = some path ∧ f.PkgName = some name ∧
        path = pre ++ slash :: name) := by
  have hq := not_mem_qualified pkg rest hpkg hrest
  refine ⟨fun h => ⟨h ▸ hq, pkg, pkg, ?_, ?_, rfl⟩,
    fun h => ⟨pre ++ slash :: pkg, pkg, ?_, ?_, rfl⟩⟩
  · rw [PkgPath_of_no_slash f (h ▸ hq), h, Cut_append pkg rest dot hdot]
    simp
  · rw [PkgName_of_no_slash f (h ▸ hq), h, Cut_append pkg rest dot hdot]
    simp
  · rw [PkgPath_of_slash f pre _ hq h, Cut_slash_cons pkg rest hdot]
    simp
  · rw [PkgName_of_slash f pre _ hq h, Cut_append pkg rest dot hdot]
    simp

theorem PkgPath_PkgName_consistent_witness :
    (∃ path name,
      (NewFrameForTest { Function := ascii "example.com/sample/a.F" }).PkgPath = some path ∧
      (NewFrameForTest { Function := ascii "example.com/sample/a.F" }).PkgName = some name ∧
      path = ascii "example.com/sample" ++ slash :: name) ∧
    (∃ path name,
      (NewFrameForTest { Function := ascii "a.F" }).PkgPath = some path ∧
      (NewFrameForTest { Function := ascii "a.F" }).PkgName = some name ∧ path = name) :=
  ⟨(PkgPath_PkgName_consistent (NewFrameForTest { Function := ascii "example.com/sample/a.F" })
      (ascii "example.com/sample") (ascii "a") (ascii "F")
      (by decide) (by decide) (by decide)).2 (by decide),
    ((PkgPath_PkgName_consistent (NewFrameForTest { Function := ascii "a.F" })
      (ascii "example.com/sample") (ascii "a") (ascii "F")
      (by decide) (by decide) (by decide)).1 (by decide)).2⟩

/-! ## The text of the verb d -/

theorem digitsLoop_eq_digits :
    ∀ (n u : Nat) (acc : GoString), u ≤ n → 0 < u →
      fmt.digitsLoop n u acc = ((Nat.digits 10 u).reverse.map fun d => 48 + d) ++ acc
  | 0, u, _, hle, hpos => by omega
  | n + 1, u, acc, hle, hpos => by
    unfold fmt.digitsLoop
    by_cases h : u ≥ 10
    · have hdiv : u / 10 ≤ n := by omega
      have hdpos : 0 < u / 10 := by omega
      have hmod : u - u / 10 * 10 = u % 10 := by omega
      rw [if_pos h, digitsLoop_eq_digits n (u / 10) _ hdiv hdpos, hmod,
        Nat.digits_def' (by norm_num : 1 < 10) hpos]
      simp
    · have hlt : u < 10 := by omega
      rw [if_neg h, Nat.digits_of_lt 10 u (by omega) hlt]
      simp

theorem formatInt_eq_decimalRepr (v : Int) : fmt.formatInt v = decimalRepr v := by
  unfold fmt.formatInt decimalRepr
  by_cases hz : v = 0
  · subst hz
    simp [fmt.digitsLoop]
  · have hpos : 0 < v.natAbs := Int.natAbs_pos.mpr hz
    rw [digitsLoop_eq_digits v.natAbs v.natAbs [] le_rfl hpos]
    by_cases hneg : v < 0 <;> simp [hneg, hz]

/-! ## The base name of a path -/

theorem last_not_slash (a b : GoString) (hne : b ≠ []) (hb : slash ∉ b) :
    (a ++ b)[(a ++ b).length - 1]? ≠ some slash := by
  intro e
  have hlen : 0 < b.length := List.length_pos.mpr hne
  have hle : a.length ≤ (a ++ b).length - 1 := by
    simp only [List.length_append]
    omega
  rw [List.getElem?_append_right hle] at e
  exact hb (List.getElem?_mem e)

theorem stripTrailing_of_last (p : GoString) (h : p[p.length - 1]? ≠ some slash) :
    ∀ n, filepath.stripTrailing n p = p
  | 0 => rfl
  | n + 1 => by simp [filepath.stripTrailing, h]

theorem Base_of_no_slash (base : GoString) (hne : base ≠ []) (hb : slash ∉ base) :
    filepath.Base base = base := by
  have hl := last_not_slash [] base hne hb
  simp only [List.nil_append] at hl
  have hi : strings.lastIndexLoop base slash base.length = -1 :=
    lastIndexLoop_of_not_mem base slash hb base.length
  simp [filepath.Base, hne, stripTrailing_of_last base hl, hi]

theorem Base_of_slash (pre base : GoString) (hne : base ≠ []) (hb : slash ∉ base) :
    filepath.Base (pre ++ slash :: base) = base := by
  have hl : (pre ++ slash :: base)[(pre ++ slash :: base).length - 1]? ≠ some slash := by
    have h := last_not_slash (pre ++ [slash]) base hne hb
    simpa using h
  have hi : strings.lastIndexLoop (pre ++ slash :: base) slash (pre ++ slash :: base).length
      = pre.length := LastIndex_append pre base slash hb
  have hd : List.drop (pre.length + 1) (pre ++ slash :: base) = base := by
    have e : pre ++ slash :: base = (pre ++ [slash]) ++ base := by simp
    rw [e]
    exact List.drop_left' (by simp)
  simp only [filepath.Base, stripTrailing_of_last _ hl, hi]
  simp [hd, hne]

/-! ## The verbs of Frame.Format -/

theorem FormatFuel_s (n : Nat) (f : Frame) (s : fmt.State) :
    Frame.FormatFuel (n + 1) f s 's' =
      some (fmt.Fprint s (if s.Flag '+' then f.File else filepath.Base f.File)) := by
  unfold Frame.FormatFuel
  cases s.Flag '+' <;> simp

theorem FormatFuel_d (n : Nat) (f : Frame) (s : fmt.State) :
    Frame.FormatFuel (n + 1) f s 'd' = some (fmt.FprintfD s f.Line) := by
  unfold Frame.FormatFuel
  simp

theorem FormatFuel_stable (n : Nat) (f : Frame) (s : fmt.State) (verb : Char) :
    Frame.FormatFuel (n + 2) f s verb = Frame.FormatFuel 2 f s verb := by
  have hs : ∀ m, Frame.FormatFuel (m + 1) f s 's' = Frame.FormatFuel 1 f s 's' := fun m => by
    rw [FormatFuel_s m, FormatFuel_s 0]
  have hd : ∀ m s1, Frame.FormatFuel (m + 1) f s1 'd' = Frame.FormatFuel 1 f s1 'd' :=
    fun m s1 => by rw [FormatFuel_d m, FormatFuel_d 0]
  have e : ∀ m, Frame.FormatFuel (m + 2) f s verb =
      (if verb = 's' then
        if s.Flag '+' then some (fmt.Fprint s f.File)
        else some (fmt.Fprint s (filepath.Base f.File))
      else if verb = 'd' then some (fmt.FprintfD s f.Line)
      else if verb = 'n' then f.FuncName.map (fmt.Fprint s)
      else if verb = 'P' then
        if s.Flag '+' then f.PkgPath.map (fmt.Fprint s)
        else f.PkgName.map (fmt.Fprint s)
      else if verb = 'v' then
        (Frame.FormatFuel 1 f s 's').bind fun s1 =>
          Frame.FormatFuel 1 f (fmt.Fprint s1 [colon]) 'd'
      else some s) := fun m => by
    rw [Frame.FormatFuel, hs m]
    simp only [hd m]
  rw [e n, e 0]

theorem Format_s (f : Frame) (s : fmt.State) :
    f.Format s 's' = some ⟨s.flags, s.out ++ (if s.Flag '+' then f.File else filepath.Base f.File)⟩ :=
  FormatFuel_s 1 f s

theorem Format_d (f : Frame) (s : fmt.State) :
    f.Format s 'd' = some ⟨s.flags, s.out ++ decimalRepr f.Line⟩ := by
  rw [Frame.Format, FormatFuel_d, fmt.FprintfD, formatInt_eq_decimalRepr]

theorem Format_n (f : Frame) (s : fmt.State) :
    f.Format s 'n' = f.FuncName.map (fmt.Fprint s) := by
  simp [Frame.Format, Frame.FormatFuel]

theorem Format_P (f : Frame) (s : fmt.State) :
    f.Format s 'P' =
      if s.Flag '+' then f.PkgPath.map (fmt.Fprint s) else f.PkgName.map (fmt.Fprint s) := by
  simp [Frame.Format, Frame.FormatFuel]

theorem Format_v (f : Frame) (s : fmt.State) :
    f.Format s 'v' =
      some ⟨s.flags, s.out ++ ((if s.Flag '+' then f.File else filepath.Base f.File)
        ++ colon :: decimalRepr f.Line)⟩ := by
  have e : f.Format s 'v' = (Frame.FormatFuel 1 f s 's').bind fun s1 =>
      Frame.FormatFuel 1 f (fmt.Fprint s1 [colon]) 'd' := by
    simp [Frame.Format, Frame.FormatFuel]
  rw [e, FormatFuel_s 0, Option.some_bind, FormatFuel_d 0]
  simp [fmt.Fprint, fmt.FprintfD, formatInt_eq_decimalRepr]

/-! ## Rendering of a frame -/

/-- C8: on every frame and every state, `Frame.Format` returns and appends to the output
exactly `File()` under `s` with the `+` flag, the decimal representation of `Line()` under
`d`, `FuncName()` under `n`, `PkgName()` under `P` without `+` and `PkgPath()` under `P` with
`+`; what was written before is kept, nothing else is added and the flags are unchanged. -/
theorem Format_accessor_verbs (f : Frame) (s : fmt.State) :
    (s.Flag '+' = true → f.Format s 's' = some ⟨s.flags, s.out ++ f.File⟩) ∧
    f.Format s 'd' = some ⟨s.flags, s.out ++ decimalRepr f.Line⟩ ∧
    (∃ name, f.FuncName = some name ∧ f.Format s 'n' = some ⟨s.flags, s.out ++ name⟩) ∧
    (s.Flag '+' = false →
      ∃ name, f.PkgName = some name ∧ f.Format s 'P' = some ⟨s.flags, s.out ++ name⟩) ∧
    (s.Flag '+' = true →
      ∃ path, f.PkgPath = some path ∧ f.Format s 'P' = some ⟨s.flags, s.out ++ path⟩) := by
  refine ⟨fun h => ?_, Format_d f s, ?_, fun h => ?_, fun h => ?_⟩
  · rw [Format_s, h]
    simp
  · obtain ⟨name, hn⟩ := FuncName_returns f
    exact ⟨name, hn, by rw [Format_n, hn]; rfl⟩
  · obtain ⟨name, hn⟩ := PkgName_returns f
    exact ⟨name, hn, by rw [Format_P, h, hn]; rfl⟩
  · obtain ⟨path, hp⟩ := PkgPath_returns f
    exact ⟨path, hp, by rw [Format_P, h, hp]; rfl⟩

theorem Format_accessor_verbs_witness :
    testFrame.Format ⟨['+'], []⟩ 's' = some ⟨['+'], ascii "example.com/sample/a/a.go"⟩ ∧
      testFrame.Format ⟨[], []⟩ 'd' = some ⟨[], ascii "10"⟩ ∧
      (∃ name, testFrame.PkgName = some name ∧
        testFrame.Format ⟨[], []⟩ 'P' = some ⟨[], [] ++ name⟩) ∧
      (∃ path, testFrame.PkgPath = some path ∧
        testFrame.Format ⟨['+'], []⟩ 'P' = some ⟨['+'], [] ++ path⟩) :=
  ⟨(Format_accessor_verbs testFrame ⟨['+'], []⟩).1 (by decide),
    (Format_accessor_verbs testFrame ⟨[], []⟩).2.1.trans
      (by rw [← formatInt_eq_decimalRepr]; decide),
    (Format_accessor_verbs testFrame ⟨[], []⟩).2.2.2.1 (by decide),
    (Format_accessor_verbs testFrame ⟨['+'], []⟩).2.2.2.2 (by decide)⟩

/-- C9: when `File()` is non-empty and does not end in `/`, that is when it is `base` or
`pre ++ "/" ++ base` with `base` non-empty and free of `/`, the verb `s` without the `+` flag
appends exactly `base` to the output: the text after the last `/`, or the whole of `File()`
when it has no `/`. -/
theorem Format_s_base_name (f : Frame) (s : fmt.State) (pre base : GoString)
    (hplus : s.Flag '+' = false) (hne : base ≠ []) (hb : slash ∉ base)
    (h : f.File = base ∨ f.File = pre ++ slash :: base) :
    f.Format s 's' = some ⟨s.flags, s.out ++ base⟩ := by
  rw [Format_s, hplus]
  rcases h with h | h
  · rw [h, Base_of_no_slash base hne hb]
    simp
  · rw [h, Base_of_slash pre base hne hb]
    simp

theorem Format_s_base_name_witness :
    ascii "a.go" ≠ [] ∧ slash ∉ ascii "a.go" ∧
      testFrame.Format ⟨[], []⟩ 's' = some ⟨[], ascii "a.go"⟩ :=
  ⟨by decide, by decide,
    Format_s_base_name testFrame ⟨[], []⟩ (ascii "example.com/sample/a") (ascii "a.go")
      (by decide) (by decide) (by decide) (Or.inr (by decide))⟩

/-- C10: without the `+` flag, the verb `v` appends exactly what the verb `s` appends, then
`:`, then what the verb `d` appends: the base name of `File()`, `:` and the decimal
representation of `Line()`. -/
theorem Format_v_composite (f : Frame) (s : fmt.State) (hplus : s.Flag '+' = false) :
    f.Format s 's' = some ⟨s.flags, s.out ++ filepath.Base f.File⟩ ∧
    f.Format s 'd' = some ⟨s.flags, s.out ++ decimalRepr f.Line⟩ ∧
    f.Format s 'v' =
      some ⟨s.flags, s.out ++ (filepath.Base f.File ++ colon :: decimalRepr f.Line)⟩ := by
  refine ⟨?_, Format_d f s, ?_⟩
  · rw [Format_s, hplus]
    simp
  · rw [Format_v, hplus]
    simp

theorem Format_v_composite_witness :
    testFrame.Format ⟨[], []⟩ 'v' = some ⟨[], ascii "a.go:10"⟩ :=
  (Format_v_composite testFrame ⟨[], []⟩ (by decide)).2.2.trans
    (by rw [← formatInt_eq_decimalRepr]; decide)

/-! ## The loop of New -/

theorem New_loop_eq :
    ∀ (l : List runtime.Frame) (n : Nat) (st : StackTrace), l.length < n →
      New.loop n ⟨l⟩ st = some (st ++ l.dropLast.map Frame.mk)
  | [], n + 1, st, _ => by
    simp [New.loop, runtime.Frames.Next]
  | [r], n + 1, st, _ => by
    simp [New.loop, runtime.Frames.Next]
  | r :: r2 :: rest, n + 1, st, h => by
    have hlt : (r2 :: rest).length < n := by
      simp only [List.length_cons] at h ⊢
      omega
    have ih := New_loop_eq (r2 :: rest) n (st ++ [⟨r⟩]) hlt
    simp only [New.loop, runtime.Frames.Next, List.isEmpty_cons, Bool.not_false, Bool.not_true,
      Bool.false_eq_true, if_false, ih]
    simp

theorem wrapInt_of_range (x : Int) (h0 : -9223372036854775808 ≤ x)
    (h1 : x < 9223372036854775808) : wrapInt x = x := by
  unfold wrapInt
  omega

theorem New_eq (stack : runtime.Stack) (skip : Int) :
    New stack skip =
      some ((runtime.Callers stack (wrapInt (2 + skip)) 32).dropLast.map Frame.mk) := by
  have h := New_loop_eq (runtime.Callers stack (wrapInt (2 + skip)) 32)
    ((runtime.Callers stack (wrapInt (2 + skip)) 32).length + 1) [] (Nat.lt_succ_self _)
  simpa [New, runtime.CallersFrames] using h

theorem New_loop_fuel (l : List runtime.Frame) (n : Nat) (st : StackTrace) (h : l.length < n) :
    New.loop n ⟨l⟩ st = New.loop (l.length + 1) ⟨l⟩ st := by
  rw [New_loop_eq l n st h, New_loop_eq l (l.length + 1) st (Nat.lt_succ_self _)]

theorem captured_getElem? (stack : runtime.Stack) (k i : Nat) :
    (((stack.drop k).take 32).dropLast.map Frame.mk)[i]? =
      if i + 1 < 32 ∧ k + i + 1 < stack.length then stack[k + i]?.map Frame.mk else none := by
  rw [List.getElem?_map, List.getElem?_dropLast, List.length_take, List.length_drop]
  by_cases h : i + 1 < 32 ∧ k + i + 1 < stack.length
  · have h1 : i < min 32 (stack.length - k) - 1 := by omega
    have h2 : i < 32 := by omega
    rw [if_pos h1, if_pos h, List.getElem?_take_of_lt h2, List.getElem?_drop]
  · have h1 : ¬ i < min 32 (stack.length - k) - 1 := by omega
    rw [if_neg h1, if_neg h]
    rfl

theorem captured_length (stack : runtime.Stack) (k : Nat) :
    (((stack.drop k).take 32).dropLast.map Frame.mk).length = min 32 (stack.length - k) - 1 := by
  simp

theorem New_of_nonneg (stack : runtime.Stack) (skip : Int) (h : 0 ≤ skip)
    (hmax : 2 + skip < 9223372036854775808) :
    New stack skip = some (((stack.drop (skip.toNat + 2)).take 32).dropLast.map Frame.mk) := by
  have e : (2 + skip).toNat = skip.toNat + 2 := by omega
  rw [New_eq, wrapInt_of_range (2 + skip) (by omega) hmax, runtime.Callers, e]

/-! ## Rendering of a stack -/

theorem Format_unknown_verb (f : Frame) (s : fmt.State) (verb : Char)
    (hs : verb ≠ 's') (hd : verb ≠ 'd') (hn : verb ≠ 'n') (hP : verb ≠ 'P') (hv : verb ≠ 'v') :
    f.Format s verb = some s := by
  simp [Frame.Format, Frame.FormatFuel, hs, hd, hn, hP, hv]

theorem Format_appends (f : Frame) (flags : List Char) (verb : Char) :
    ∃ x, ∀ out, f.Format ⟨flags, out⟩ verb = some ⟨flags, out ++ x⟩ := by
  by_cases hs : verb = 's'
  · subst hs
    exact ⟨if fmt.State.Flag ⟨flags, []⟩ '+' then f.File else filepath.Base f.File,
      fun out => Format_s f ⟨flags, out⟩⟩
  by_cases hd : verb = 'd'
  · subst hd
    exact ⟨decimalRepr f.Line, fun out => Format_d f ⟨flags, out⟩⟩
  by_cases hn : verb = 'n'
  · subst hn
    obtain ⟨name, h⟩ := FuncName_returns f
    exact ⟨name, fun out => by rw [Format_n, h]; rfl⟩
  by_cases hP : verb = 'P'
  · subst hP
    obtain ⟨name, h1⟩ := PkgName_returns f
    obtain ⟨path, h2⟩ := PkgPath_returns f
    refine ⟨if fmt.State.Flag ⟨flags, []⟩ '+' then path else name, fun out => ?_⟩
    have e : fmt.State.Flag ⟨flags, out⟩ '+' = fmt.State.Flag ⟨flags, []⟩ '+' := rfl
    rw [Format_P, h1, h2, e]
    cases fmt.State.Flag ⟨flags, []⟩ '+' <;> rfl
  by_cases hv : verb = 'v'
  · subst hv
    exact ⟨(if fmt.State.Flag ⟨flags, []⟩ '+' then f.File else filepath.Base f.File)
        ++ colon :: decimalRepr f.Line,
      fun out => Format_v f ⟨flags, out⟩⟩
  · exact ⟨[], fun out => by rw [Format_unknown_verb f _ verb hs hd hn hP hv]; simp⟩

theorem intercalate_cons (sep x : GoString) (xs : List GoString) :
    List.intercalate sep (x :: xs) = x ++ (xs.map fun y => sep ++ y).flatten := by
  induction xs generalizing x with
  | nil => simp [List.intercalate, List.intersperse]
  | cons y ys ih =>
    have h := ih y
    simp only [List.intercalate] at h ⊢
    simp [List.intersperse, h]

theorem formatLoop_spec (verb : Char) (flags : List Char) :
    ∀ (st : List Frame) (i : Nat) (out : GoString),
      ∃ texts : List GoString,
        List.Forall₂
          (fun f x => ∀ o, f.Format ⟨flags, o⟩ verb = some ⟨flags, o ++ x⟩) st texts ∧
        StackTrace.formatLoop verb st i ⟨flags, out⟩ =
          some ⟨flags, out ++
            (if i = 0 then List.intercalate [32] texts
              else (texts.map fun y => [32] ++ y).flatten)⟩
  | [], i, out => ⟨[], List.Forall₂.nil, by
      cases i <;> simp [StackTrace.formatLoop, List.intercalate, List.intersperse]⟩
  | f :: rest, i, out => by
    obtain ⟨x, hx⟩ := Format_appends f flags verb
    by_cases hi : i = 0
    · subst hi
      obtain ⟨texts, hall, hrest⟩ := formatLoop_spec verb flags rest 1 (out ++ x)
      refine ⟨x :: texts, List.Forall₂.cons hx hall, ?_⟩
      simp only [StackTrace.formatLoop, Nat.lt_irrefl, if_false, hx, Option.some_bind,
        Nat.zero_add, hrest, if_true, intercalate_cons]
      simp
    · obtain ⟨texts, hall, hrest⟩ :=
        formatLoop_spec verb flags rest (i + 1) ((out ++ [32]) ++ x)
      refine ⟨x :: texts, List.Forall₂.cons hx hall, ?_⟩
      have hpos : i > 0 := Nat.pos_of_ne_zero hi
      simp only [StackTrace.formatLoop, hpos, if_true, fmt.Fprint, hx, Option.some_bind, hrest,
        hi, if_false, Nat.add_eq_zero, one_ne_zero, and_false]
      simp

theorem formatLoop_unknown_verb (verb : Char)
    (hs : verb ≠ 's') (hd : verb ≠ 'd') (hn : verb ≠ 'n') (hP : verb ≠ 'P') (hv : verb ≠ 'v') :
    ∀ (st : List Frame) (i : Nat) (s : fmt.State),
      StackTrace.formatLoop verb st i s =
        some ⟨s.flags, s.out ++
          List.replicate (if i = 0 then st.length - 1 else st.length) 32⟩
  | [], i, s => by
    cases i <;> simp [StackTrace.formatLoop]
  | f :: rest, i, s => by
    have ih := formatLoop_unknown_verb verb hs hd hn hP hv rest (i + 1)
    by_cases hi : i = 0
    · subst hi
      simp [StackTrace.formatLoop, Format_unknown_verb f _ verb hs hd hn hP hv, ih]
    · have hpos : i > 0 := Nat.pos_of_ne_zero hi
      simp [StackTrace.formatLoop, Format_unknown_verb f _ verb hs hd hn hP hv, ih, hpos, hi,
        fmt.Fprint, List.replicate_succ]

/-- C11: for every stack trace, verb and state (whatever its flags), `StackTrace.Format`
returns and appends to the output exactly `[`, the texts that `Frame.Format` appends for the
frames of the trace under the same verb and flags, in order and joined by one space, and `]`;
the empty trace gives `[]`. -/
theorem StackTrace_Format_spec (st : StackTrace) (s : fmt.State) (verb : Char) :
    (∃ texts : List GoString,
      List.Forall₂
        (fun f x => ∀ o, f.Format ⟨s.flags, o⟩ verb = some ⟨s.flags, o ++ x⟩) st texts ∧
      StackTrace.Format st s verb =
        some ⟨s.flags, s.out ++ ([91] ++ List.intercalate [32] texts ++ [93])⟩) ∧
    StackTrace.Format [] s verb = some ⟨s.flags, s.out ++ [91, 93]⟩ := by
  constructor
  · obtain ⟨texts, hall, h⟩ := formatLoop_spec verb s.flags st 0 (s.out ++ [91])
    refine ⟨texts, hall, ?_⟩
    have e : fmt.Fprint s [91] = ⟨s.flags, s.out ++ [91]⟩ := rfl
    rw [StackTrace.Format, e, h]
    simp [fmt.Fprint]
  · simp [StackTrace.Format, StackTrace.formatLoop, fmt.Fprint]

/-- C12: for a verb other than `s`, `d`, `n`, `P` and `v`, whatever the flags,
`Frame.Format` returns and leaves the state as it was (nothing is written), and
`StackTrace.Format` returns and appends `[`, one space between consecutive frames and `]`. -/
theorem Format_unknown_verb_spec (verb : Char)
    (hs : verb ≠ 's') (hd : verb ≠ 'd') (hn : verb ≠ 'n') (hP : verb ≠ 'P') (hv : verb ≠ 'v') :
    (∀ (f : Frame) (s : fmt.State), f.Format s verb = some s) ∧
    ∀ (st : StackTrace) (s : fmt.State),
      StackTrace.Format st s verb =
        some ⟨s.flags, s.out ++ ([91] ++ List.replicate (st.length - 1) 32 ++ [93])⟩ := by
  refine ⟨fun f s => Format_unknown_verb f s verb hs hd hn hP hv, fun st s => ?_⟩
  rw [StackTrace.Format, formatLoop_unknown_verb verb hs hd hn hP hv st 0]
  simp [fmt.Fprint]

theorem Format_unknown_verb_spec_witness :
    testFrame.Format ⟨['+'], []⟩ 'x' = some ⟨['+'], []⟩ ∧
      StackTrace.Format [testFrame, testFrame] ⟨[], []⟩ 'x' = some ⟨[], ascii "[ ]"⟩ :=
  ⟨(Format_unknown_verb_spec 'x' (by decide) (by decide) (by decide) (by decide) (by decide)).1
      testFrame ⟨['+'], []⟩,
    (Format_unknown_verb_spec 'x' (by decide) (by decide) (by decide) (by decide) (by decide)).2
      [testFrame, testFrame] ⟨[], []⟩⟩

/-! ## Capture of the stack -/

theorem New_first_frame (stack : runtime.Stack) (skip : Int) (h0 : 0 ≤ skip)
    (hmax : 2 + skip < 9223372036854775808) (h : skip.toNat + 3 < stack.length) :
    ∃ st, New stack skip = some st ∧ st ≠ [] ∧
      st[0]? = stack[skip.toNat + 2]?.map Frame.mk := by
  refine ⟨_, New_of_nonneg stack skip h0 hmax, ?_, ?_⟩
  · intro e
    have hl := congrArg List.length e
    rw [captured_length] at hl
    simp only [List.length_nil] at hl
    omega
  · rw [captured_getElem?, if_pos ⟨by omega, by omega⟩]

theorem New_frames_from_stack (stack : runtime.Stack) (skip : Int) (h0 : 0 ≤ skip)
    (hmax : 2 + skip < 9223372036854775808) :
    ∃ st, New stack skip = some st ∧ st.length ≤ 31 ∧
      ∀ i, i < st.length → st[i]? = stack[skip.toNat + 2 + i]?.map Frame.mk := by
  refine ⟨_, New_of_nonneg stack skip h0 hmax, ?_, fun i hi => ?_⟩
  · rw [captured_length]
    omega
  · rw [captured_length] at hi
    rw [captured_getElem?, if_pos ⟨by omega, by omega⟩]

/-- C13 (the code at the failing input): on the stack of `TestNew` the frame 4 levels above
the immediate caller of `New` exists (it is the outermost one, `runtime.goexit`), and
`New(4)` returns the empty trace. -/
theorem New_outermost_frame_lost :
    liveStack[2 + 4]? =
      some { Function := ascii "runtime.goexit", File := ascii "runtime/asm_amd64.s",
             Line := 1695 } ∧
    New liveStack 4 = some [] := by
  decide

/-- C14 (counterexample): on the stack of `TestNew`, the first frame of `New(0)` is not the
frame of `New` itself and the first frame of `New(1)` is not the immediate caller of `New`. -/
theorem New_skip_zero_not_own_frame :
    ¬ ((New liveStack 0).bind List.head? = liveStack[1]?.map Frame.mk ∧
       (New liveStack 1).bind List.head? = liveStack[2]?.map Frame.mk) := by
  decide

/-- C14 (amended): `New` passes `2+skip` to `runtime.Callers`, so `skip` counts from the
immediate caller of `New`: for `skip >= 0` with `2+skip` within the range of `int`, when a
further frame lies beyond it, the first frame of `New(skip)` is entry `2+skip` of the stack;
the first frame of `New(0)` is the immediate caller of `New` (entry 2), and the first frame of
`New(1)` is the caller of that caller (entry 3). -/
theorem New_skip_counts_from_caller (stack : runtime.Stack) :
    (∀ skip : Int, 0 ≤ skip → 2 + skip < 9223372036854775808 →
      skip.toNat + 3 < stack.length →
      ∃ st, New stack skip = some st ∧ st[0]? = stack[skip.toNat + 2]?.map Frame.mk ∧
        st ≠ []) ∧
    (3 < stack.length →
      ∃ st, New stack 0 = some st ∧ st[0]? = stack[2]?.map Frame.mk ∧ st ≠ []) ∧
    (4 < stack.length →
      ∃ st, New stack 1 = some st ∧ st[0]? = stack[3]?.map Frame.mk ∧ st ≠ []) := by
  refine ⟨fun skip h0 hmax h => ?_, fun h => ?_, fun h => ?_⟩
  · obtain ⟨st, h1, h2, h3⟩ := New_first_frame stack skip h0 hmax h
    exact ⟨st, h1, h3, h2⟩
  · obtain ⟨st, h1, h2, h3⟩ :=
      New_first_frame stack 0 (by omega) (by omega) (by simpa using h)
    exact ⟨st, h1, by simpa using h3, h2⟩
  · obtain ⟨st, h1, h2, h3⟩ :=
      New_first_frame stack 1 (by omega) (by omega) (by simpa using h)
    exact ⟨st, h1, by simpa using h3, h2⟩

theorem New_skip_counts_from_caller_witness :
    (∃ st, New liveStack 2 = some st ∧ st[0]? = liveStack[4]?.map Frame.mk ∧ st ≠ []) ∧
    (∃ st, New liveStack 0 = some st ∧ st[0]? = liveStack[2]?.map Frame.mk ∧ st ≠ []) ∧
    (∃ st, New liveStack 1 = some st ∧ st[0]? = liveStack[3]?.map Frame.mk ∧ st ≠ []) :=
  ⟨(New_skip_counts_from_caller liveStack).1 2 (by decide) (by decide) (by decide),
    (New_skip_counts_from_caller liveStack).2.1 (by decide),
    (New_skip_counts_from_caller liveStack).2.2 (by decide)⟩

/-- C15 (the code at the failing input): on the stack of `TestNew` with `skip = 0` the walker
yields 5 records, the last of them (`runtime.goexit`) coming from `Next` with `more = false`;
`New` returns 4 frames, the records without the last one. With one record only, the loop
returns the empty trace. -/
theorem New_last_record_lost :
    (runtime.Callers liveStack (2 + 0) 32).length = 5 ∧
    (New liveStack 0).map List.length = some 4 ∧
    New liveStack 0 = some ((runtime.Callers liveStack (2 + 0) 32).dropLast.map Frame.mk) ∧
    ((runtime.CallersFrames (runtime.Callers liveStack (2 + 4) 32)).Next).2.1 = false ∧
    New.loop 2 (runtime.CallersFrames (runtime.Callers liveStack (2 + 4) 32)) [] = some [] := by
  decide

/-- C16: the frame wrapping a raw record `r` returns `r` from `RuntimeFrame()`, `r.File` from
`File()` and `r.Line` from `Line()`; and two frames whose records have the same `Function`
give the same `FuncName()`, `PkgPath()` and `PkgName()`, whatever the other fields. -/
theorem Frame_accessors_raw (r r2 : runtime.Frame) (h : r.Function = r2.Function) :
    (Frame.mk r).RuntimeFrame = r ∧ (Frame.mk r).File = r.File ∧ (Frame.mk r).Line = r.Line ∧
    (Frame.mk r).FuncName = (Frame.mk r2).FuncName ∧
    (Frame.mk r).PkgPath = (Frame.mk r2).PkgPath ∧
    (Frame.mk r).PkgName = (Frame.mk r2).PkgName := by
  refine ⟨rfl, rfl, rfl, ?_, ?_, ?_⟩
  · simp only [Frame.FuncName, h]
  · simp only [Frame.PkgPath, h]
  · simp only [Frame.PkgName, h]

theorem Frame_accessors_raw_witness :
    testFrame.RuntimeFrame =
        { Function := ascii "example.com/sample/a.F.G.func1",
          File := ascii "example.com/sample/a/a.go", Line := 10 } ∧
      testFrame.File = ascii "example.com/sample/a/a.go" ∧ testFrame.Line = 10 ∧
      testFrame.FuncName =
        (Frame.mk { Function := ascii "example.com/sample/a.F.G.func1",
                    File := ascii "b.go", Line := 7, PC := 3 }).FuncName ∧
      testFrame.PkgPath =
        (Frame.mk { Function := ascii "example.com/sample/a.F.G.func1",
                    File := ascii "b.go", Line := 7, PC := 3 }).PkgPath ∧
      testFrame.PkgName =
        (Frame.mk { Function := ascii "example.com/sample/a.F.G.func1",
                    File := ascii "b.go", Line := 7, PC := 3 }).PkgName :=
  Frame_accessors_raw
    { Function := ascii "example.com/sample/a.F.G.func1",
      File := ascii "example.com/sample/a/a.go", Line := 10 }
    { Function := ascii "example.com/sample/a.F.G.func1",
      File := ascii "b.go", Line := 7, PC := 3 }
    (by decide)

/-- C17: for every symbol, the index `idx` of the last `/` is `-1` or a position of the
symbol, the slices `[idx:]`, `[:idx]` and `[idx+1:]` taken when `idx >= 0` are within bounds,
and `FuncName()`, `PkgPath()` and `PkgName()` each return a string. -/
theorem accessors_never_fault (f : Frame) :
    (-1 ≤ strings.LastIndex f.frame.Function slash ∧
      strings.LastIndex f.frame.Function slash < (f.frame.Function.length : Int)) ∧
    (0 ≤ strings.LastIndex f.frame.Function slash →
      (∃ x, sliceFrom f.frame.Function (strings.LastIndex f.frame.Function slash) = some x) ∧
      (∃ x, sliceTo f.frame.Function (strings.LastIndex f.frame.Function slash) = some x) ∧
      (∃ x, sliceFrom f.frame.Function (strings.LastIndex f.frame.Function slash + 1)
        = some x)) ∧
    (∃ name, f.FuncName = some name) ∧ (∃ path, f.PkgPath = some path) ∧
    (∃ name, f.PkgName = some name) := by
  have hb := LastIndex_bounds f.frame.Function slash
  refine ⟨hb, fun h => ⟨⟨_, sliceFrom_isSome _ _ h (le_of_lt hb.2)⟩,
    ⟨_, sliceTo_isSome _ _ h (le_of_lt hb.2)⟩,
    ⟨_, sliceFrom_isSome _ _ (by omega) (by omega)⟩⟩,
    FuncName_returns f, PkgPath_returns f, PkgName_returns f⟩

theorem accessors_never_fault_witness :
    ((∃ x, sliceFrom (ascii "a/") (strings.LastIndex (ascii "a/") slash + 1) = some x) ∧
      (∃ name, (Frame.mk { Function := ascii "a/" }).FuncName = some name)) ∧
    ((∃ x, sliceFrom (ascii "a/.b") (strings.LastIndex (ascii "a/.b") slash) = some x) ∧
      (∃ name, (Frame.mk { Function := ascii "a/.b" }).PkgName = some name)) ∧
    (∃ path, (Frame.mk { Function := [] }).PkgPath = some path) :=
  ⟨⟨((accessors_never_fault (Frame.mk { Function := ascii "a/" })).2.1 (by decide)).2.2,
      (accessors_never_fault (Frame.mk { Function := ascii "a/" })).2.2.1⟩,
    ⟨((accessors_never_fault (Frame.mk { Function := ascii "a/.b" })).2.1 (by decide)).1,
      (accessors_never_fault (Frame.mk { Function := ascii "a/.b" })).2.2.2.2⟩,
    (accessors_never_fault (Frame.mk { Function := [] })).2.2.2.1⟩

/-- C18 (counterexample): for the frame of `TestFrame_Format`, the verb `v` with the `+` flag
writes the full file path and the line, which is not what it writes without the flag. -/
theorem Format_v_plus_full_path :
    testFrame.Format ⟨['+'], []⟩ 'v' = some ⟨['+'], ascii "example.com/sample/a/a.go:10"⟩ ∧
    testFrame.Format ⟨[], []⟩ 'v' = some ⟨[], ascii "a.go:10"⟩ ∧
    ascii "example.com/sample/a/a.go:10" ≠ ascii "a.go:10" := by
  decide

/-- C18 (amended): the verb `v` hands the state, flags included, to the verb `s`: without the
`+` flag it appends the base name of `File()`, `:` and the decimal line; with the `+` flag it
appends `File()` unmodified, `:` and the decimal line. -/
theorem Format_v_follows_plus (f : Frame) (s : fmt.State) :
    (s.Flag '+' = false →
      f.Format s 'v' =
        some ⟨s.flags, s.out ++ (filepath.Base f.File ++ colon :: decimalRepr f.Line)⟩) ∧
    (s.Flag '+' = true →
      f.Format s 'v' = some ⟨s.flags, s.out ++ (f.File ++ colon :: decimalRepr f.Line)⟩) := by
  refine ⟨fun h => ?_, fun h => ?_⟩
  · rw [Format_v, h]
    simp
  · rw [Format_v, h]
    simp

theorem Format_v_follows_plus_witness :
    testFrame.Format ⟨[], []⟩ 'v' = some ⟨[], ascii "a.go:10"⟩ ∧
      testFrame.Format ⟨['+'], []⟩ 'v' =
        some ⟨['+'], ascii "example.com/sample/a/a.go:10"⟩ :=
  ⟨((Format_v_follows_plus testFrame ⟨[], []⟩).1 (by decide)).trans
      (by rw [← formatInt_eq_decimalRepr]; decide),
    ((Format_v_follows_plus testFrame ⟨['+'], []⟩).2 (by decide)).trans
      (by rw [← formatInt_eq_decimalRepr]; decide)⟩

/-- C19 (the code at the failing input): on a stack of 40 frames, 38 of them beyond the 2
skipped ones, `New(0)` returns 31 frames, not 32: the frames 2 to 32 of the stack, the 32nd
captured one (frame 33) being left out. -/
theorem New_full_buffer_gives_31 :
    deepStack.length = 40 ∧
    (runtime.Callers deepStack (2 + 0) 32).length = 32 ∧
    (New deepStack 0).map List.length = some 31 ∧
    New deepStack 0 = some (((deepStack.drop 2).take 31).map Frame.mk) := by
  decide

/-- C20 (counterexample): on the stack of `TestNew` with `skip = MaxInt64-1`, the sums
`2+skip` and `2+(skip+1)` both wrap around to a negative number, so `New(skip)` and
`New(skip+1)` are the same trace, starting at the frame of `runtime.Callers`: `New(skip)` has
at least two frames, `New(skip+1)` at least one, and the first frame of `New(skip+1)` (the
frame of `runtime.Callers`) is not the second frame of `New(skip)` (the frame of `New`). -/
theorem New_skip_shift_wraps :
    New liveStack 9223372036854775806 = some (liveStack.dropLast.map Frame.mk) ∧
    New liveStack (9223372036854775806 + 1) = some (liveStack.dropLast.map Frame.mk) ∧
    2 ≤ (liveStack.dropLast.map Frame.mk).length ∧
    (liveStack.dropLast.map Frame.mk)[0]? = liveStack[0]?.map Frame.mk ∧
    (liveStack.dropLast.map Frame.mk)[1]? = liveStack[1]?.map Frame.mk ∧
    (liveStack.dropLast.map Frame.mk)[0]? ≠ (liveStack.dropLast.map Frame.mk)[1]? := by
  decide

/-- C20 (amended): for `skip >= 0` with `2+(skip+1)` within the range of `int`, when
`New(skip)` has at least two frames and `New(skip+1)` at least one, on the same stack, the
first frame of `New(skip+1)` is the second frame of `New(skip)`. -/
theorem New_skip_shift (stack : runtime.Stack) (skip : Int) (st st1 : StackTrace)
    (h0 : 0 ≤ skip) (hmax : 2 + (skip + 1) < 9223372036854775808)
    (h : New stack skip = some st) (h1 : New stack (skip + 1) = some st1)
    (hl : 2 ≤ st.length) (_hl1 : 1 ≤ st1.length) :
    ∃ fr, st1[0]? = some fr ∧ st[1]? = some fr := by
  have e : (skip + 1).toNat + 2 = skip.toNat + 2 + 1 := by omega
  rw [New_of_nonneg stack skip h0 (by omega)] at h
  rw [New_of_nonneg stack (skip + 1) (by omega) hmax, e] at h1
  have hs := Option.some.inj h
  have hs1 := Option.some.inj h1
  have hlen : 2 ≤ min 32 (stack.length - (skip.toNat + 2)) - 1 := by
    rw [← captured_length, hs]
    exact hl
  have hk : skip.toNat + 2 + 1 < stack.length := by omega
  have g1 : st1[0]? = stack[skip.toNat + 2 + 1]?.map Frame.mk := by
    rw [← hs1, captured_getElem?, if_pos ⟨by omega, by omega⟩]
  have g : st[1]? = stack[skip.toNat + 2 + 1]?.map Frame.mk := by
    rw [← hs, captured_getElem?, if_pos ⟨by omega, by omega⟩]
  refine ⟨Frame.mk stack[skip.toNat + 2 + 1], ?_, ?_⟩
  · rw [g1, List.getElem?_eq_getElem hk]
    rfl
  · rw [g, List.getElem?_eq_getElem hk]
    rfl

theorem New_skip_shift_witness :
    ∃ fr, (((liveStack.drop 3).take 32).dropLast.map Frame.mk)[0]? = some fr ∧
      (((liveStack.drop 2).take 32).dropLast.map Frame.mk)[1]? = some fr :=
  New_skip_shift liveStack 0 (((liveStack.drop 2).take 32).dropLast.map Frame.mk)
    (((liveStack.drop 3).take 32).dropLast.map Frame.mk)
    (by decide) (by decide) (by decide) (by decide) (by decide) (by decide)

end caller
